import Mathlib

/-!
Verification of the hard-mode Wordle solver in `HardModeWordlePlayer.py`.

Words and feedback strings are embedded as `List Char`; feedback characters
are `'0'` (absent), `'1'` (misplaced), `'2'` (correct), matching the digit
strings the Python code compares against.  Python indexing `s[i]` on
equal-length strings is embedded as `List.getD i ' '`, and the iteration
`for i, x in enumerate(xs)` over equal-length sequences as a zip or a fold
over `List.range`.
-/

namespace HardModeWordle

/-- A guessed or candidate word, as its list of characters. -/
abbrev Word := List Char

/-- A feedback code, one of '0'/'1'/'2' per position. -/
abbrev Feedback := List Char

/-- Mutable per-game state of `HardModeWordlePlayer`: the fields
`correct_positions` (Python: a list of `k` strings, each `''` or a single
letter, embedded as `Option Char` entries) and `misplaced_letters`
(a duplicate-free list of letters, appended in discovery order). -/
structure PlayerState where
  correct_positions : List (Option Char)
  misplaced_letters : List Char
deriving DecidableEq

/-- Embedding of `HardModeWordlePlayer.reset`: `correct_positions = [''] * k`,
`misplaced_letters = []`. -/
def reset (k : Nat) : PlayerState :=
  ⟨List.replicate k none, []⟩

/-- Modelled from the spec: the multiset of target letters left unmatched by
the first pass of the standard two-pass oracle (`Wordle.response_to_guess`
is not under `src/`).  From §6: "first pass marks exact positional matches
as 2"; the remaining target letters feed the second pass. -/
def unmatched_targets (ps : List (Char × Char)) : List Char :=
  ps.filterMap fun p => if p.1 = p.2 then none else some p.2

/-- Modelled from the spec: the second pass of the two-pass oracle.  From §6:
"second pass marks remaining guess letters as 1 if the letter has an
unmatched occurrence remaining in the target, else 0"; consuming one
unmatched occurrence per '1'. -/
def pass2 (ps : List (Char × Char)) (avail : List Char) : List Char :=
  match ps with
  | [] => []
  | p :: rest =>
    if p.1 = p.2 then '2' :: pass2 rest avail
    else if p.1 ∈ avail then '1' :: pass2 rest (avail.erase p.1)
    else '0' :: pass2 rest avail

/-- Modelled from the spec: `FeedbackOracle.evaluate` / `Wordle.response_to_guess`
(not under `src/`), §6: the standard Wordle two-pass algorithm producing a
digit code per position of the guess. -/
def response_to_guess (guess target : Word) : Feedback :=
  pass2 (guess.zip target) (unmatched_targets (guess.zip target))

/-- Modelled from the spec: `FeedbackOracle.isWinning` / `Wordle.is_correct_response`
(not under `src/`), §6: "true iff every element equals CORRECT". -/
def is_correct_response (response : Feedback) : Bool :=
  response.all fun c => decide (c = '2')

/-- Embedding of the `char_occurrences` dictionary of `adjust_candidates`:
the number of occurrences of a character in the guess. -/
def char_occurrences (guess : Word) (c : Char) : Nat :=
  guess.count c

/-- Embedding of the `char_required_count` dictionary of `adjust_candidates`:
a position contributes to `char_required_count[char]` when its response is
'1' or '2' and the character occurs more than once in the guess. -/
def char_required_count (guess response : List Char) (c : Char) : Nat :=
  ((guess.zip response).filter fun p =>
    decide ((p.2 = '1' ∨ p.2 = '2') ∧ 1 < char_occurrences guess p.1 ∧ p.1 = c)).length

/-- Embedding of one iteration of the `for i, resp in enumerate(response)`
filtering loop of `adjust_candidates` (lines 63-77 of the source). -/
def filterStep (guess response : List Char) (i : Nat) (cands : List Word) : List Word :=
  let resp := response.getD i ' '
  if resp = '2' then
    cands.filter fun cand => decide (cand.getD i ' ' = guess.getD i ' ')
  else if resp = '1' then
    cands.filter fun cand => decide (guess.getD i ' ' ∈ cand ∧ cand.getD i ' ' ≠ guess.getD i ' ')
  else if resp = '0' then
    let indices_of_letter :=
      (List.range guess.length).filter fun j => decide (guess.getD j ' ' = guess.getD i ' ')
    let valid_for_removal :=
      indices_of_letter.all fun j =>
        decide (response.getD j ' ' ≠ '2' ∧ response.getD j ' ' ≠ '1')
    if valid_for_removal then cands.filter fun cand => decide (guess.getD i ' ' ∉ cand)
    else cands
  else cands

/-- Embedding of the whole position-filtering loop of `adjust_candidates`. -/
def position_filters (guess response : List Char) (cands : List Word) : List Word :=
  (List.range response.length).foldl (fun cs i => filterStep guess response i cs) cands

/-- Embedding of the inner predicate `meets_required_counts` of
`adjust_candidates`: only characters in the `char_required_count` dictionary
are constrained, and those are all characters of the guess (the count is 0
for the others). -/
def meets_required_counts (guess response : List Char) (cand : Word) : Bool :=
  decide (∀ c ∈ guess, char_required_count guess response c ≤ cand.count c)

/-- Embedding of `HardModeWordlePlayer.adjust_candidates`: per-position
filters, then the minimum-count filter, then Python's
`if guess in new_candidates: new_candidates.remove(guess)`, which removes
the first occurrence only — exactly `List.erase`. -/
def adjust_candidates (guess response : List Char) (candidates : List Word) : List Word :=
  (((position_filters guess response candidates).filter fun cand =>
      meets_required_counts guess response cand).erase guess)

/-- Embedding of the body of `HardModeWordlePlayer.update_game_state`,
recursing over the zipped `(guess, response)` pairs and carrying the current
position index (used by the assignment `correct_positions[i] = g`). -/
def ugsAux : PlayerState → List (Char × Char) → Nat → PlayerState
  | st, [], _ => st
  | st, p :: rest, i =>
    let st' :=
      if p.2 = '2' then
        { st with correct_positions := st.correct_positions.set i (some p.1) }
      else if p.2 = '1' ∧ some p.1 ∉ st.correct_positions then
        (if p.1 ∈ st.misplaced_letters then st
         else { st with misplaced_letters := st.misplaced_letters ++ [p.1] })
      else st
    ugsAux st' rest (i + 1)

/-- Embedding of `HardModeWordlePlayer.update_game_state`:
`for i, (g, r) in enumerate(zip(guess, response))`. -/
def update_game_state (st : PlayerState) (guess response : List Char) : PlayerState :=
  ugsAux st (guess.zip response) 0

/-- Embedding of `HardModeWordlePlayer.is_guess_valid`: every already
confirmed position must carry its confirmed letter, and every misplaced
letter must occur somewhere in the guess.  (The additional slot-avoidance
rule is commented out in the source and therefore not part of the
embedding.) -/
def is_guess_valid (st : PlayerState) (guess : Word) : Bool :=
  ((guess.zip st.correct_positions).all fun p =>
    match p.2 with
    | some c => decide (p.1 = c)
    | none => true)
  && st.misplaced_letters.all fun c => decide (c ∈ guess)

/-- Embedding of `HardModeWordlePlayer.generate_hard_mode_guess`.  The call
to `give_guess` (interactive `input()` and `random.choice` over the words of
`candidates` that are legal and unattempted) is abstracted by the parameter
`pick`, applied to the `valid_candidates` list; the score returned alongside
the guess comes from the external scorer and is not modelled.  Raising
`ValueError` is embedded as `Except.error` with the source's message. -/
def generate_hard_mode_guess (pick : List Word → Word)
    (candidates attempts : List Word) (st : PlayerState) : Except String Word :=
  let valid_candidates :=
    candidates.filter fun w => is_guess_valid st w && decide (w ∉ attempts)
  if valid_candidates = [] then
    Except.error "No valid candidates available that meet hard mode constraints."
  else Except.ok (pick valid_candidates)

/-- Outcome of one solver-loop run of `play`.  `won`, `exhausted` and
`loopExit` (the `while` guard failing) record the values of the local
variables `num_guess`, `trace`, `candidates`, `attempts` and the mutable
constraint state at the moment the loop stops; `noLegalGuess` is the
uncaught `ValueError` propagating out of the loop, and `outOfFuel` marks
exhaustion of the step budget of the fuelled embedding. -/
inductive PlayResult where
  | won (numGuess : Nat) (trace : List (Word × Feedback))
      (candidates attempts : List Word) (st : PlayerState)
  | exhausted (numGuess : Nat) (trace : List (Word × Feedback))
      (candidates attempts : List Word) (st : PlayerState)
  | loopExit (numGuess : Nat) (trace : List (Word × Feedback))
      (candidates attempts : List Word) (st : PlayerState)
  | noLegalGuess
  | outOfFuel
deriving DecidableEq

/-- The `num_guess` value reported by a finished run (0 for the aborting
outcomes, which return no count). -/
def guessCount : PlayResult → Nat
  | .won n _ _ _ _ => n
  | .exhausted n _ _ _ _ => n
  | .loopExit n _ _ _ _ => n
  | .noLegalGuess => 0
  | .outOfFuel => 0

/-- Embedding of the guess selection of one round of `play` (lines 141-145):
the forced `first_guess` on round 1 when supplied, otherwise
`generate_hard_mode_guess`. -/
def selectGuess (pick : List Word → Word) (firstGuess : Option Word) (numGuess : Nat)
    (candidates attempts : List Word) (st : PlayerState) : Except String Word :=
  match firstGuess with
  | some f =>
    if numGuess = 1 then Except.ok f
    else generate_hard_mode_guess pick candidates attempts st
  | none => generate_hard_mode_guess pick candidates attempts st

/-- Embedding of the `while len(candidates) >= 1` loop of
`HardModeWordlePlayer.play`, with an explicit fuel bounding the number of
iterations.  Each round: increment `num_guess`, select a guess, get the
oracle's response, append to the trace; on a non-winning response update the
state, narrow the candidates and add the guess to `attempts` (a set, so
`List.insert`), stopping with `exhausted` when the candidates become empty;
on a winning response stop at once. -/
def playLoop (pick : List Word → Word) (target : Word) (firstGuess : Option Word)
    (fuel : Nat) (numGuess : Nat) (candidates attempts : List Word)
    (trace : List (Word × Feedback)) (st : PlayerState) : PlayResult :=
  match fuel with
  | 0 =>
    if 1 ≤ candidates.length then PlayResult.outOfFuel
    else PlayResult.loopExit numGuess trace candidates attempts st
  | fuel' + 1 =>
    if 1 ≤ candidates.length then
      match selectGuess pick firstGuess (numGuess + 1) candidates attempts st with
      | Except.error _ => PlayResult.noLegalGuess
      | Except.ok guess =>
        let response := response_to_guess guess target
        let trace' := trace ++ [(guess, response)]
        if is_correct_response response then
          PlayResult.won (numGuess + 1) trace' candidates attempts st
        else
          let st' := update_game_state st guess response
          let candidates' := adjust_candidates guess response candidates
          let attempts' := attempts.insert guess
          if candidates'.length = 0 then
            PlayResult.exhausted (numGuess + 1) trace' candidates' attempts' st'
          else
            playLoop pick target firstGuess fuel' (numGuess + 1) candidates' attempts'
              trace' st'
    else PlayResult.loopExit numGuess trace candidates attempts st

/-- Embedding of `HardModeWordlePlayer.play`: lowercase the target, the
forced first guess and the word list, reset the state, and run the loop
starting from the full lowercased word list as candidates, an empty attempts
set and an empty trace.  The fuel `candidates.length + 1` is enough for the
loop to finish on its own (proved below).  The lowercased `guess_list` is
unused by the hard-mode selection path (which draws from `candidates`) and
is omitted. -/
def play (k : Nat) (pick : List Word → Word) (words : List Word)
    (target : Word) (firstGuess : Option Word) : PlayResult :=
  let target' := target.map Char.toLower
  let firstGuess' := firstGuess.map (List.map Char.toLower)
  let candidates := words.map (List.map Char.toLower)
  playLoop pick target' firstGuess' (candidates.length + 1) 0 candidates [] [] (reset k)

/-- A concrete choice function (used only to instantiate theorems): the
first element of the offered list. -/
def pickHead (l : List Word) : Word :=
  l.headD []

/-! ### Generic list helpers -/

theorem getD_mem {α : Type} {l : List α} {i : Nat} (d : α) (h : i < l.length) :
    l.getD i d ∈ l := by
  induction l generalizing i with
  | nil => simp at h
  | cons a t ih =>
    cases i with
    | zero => simp
    | succ n =>
      simp only [List.getD_cons_succ]
      exact List.mem_cons_of_mem _ (ih (by simpa [Nat.succ_lt_succ_iff] using h))

theorem exists_getD_of_mem {α : Type} {a : α} {l : List α} (d : α) (h : a ∈ l) :
    ∃ i, i < l.length ∧ l.getD i d = a := by
  induction l with
  | nil => simp at h
  | cons b t ih =>
    rcases List.mem_cons.mp h with rfl | h'
    · exact ⟨0, by simp, by simp⟩
    · rcases ih h' with ⟨i, hi, he⟩
      exact ⟨i + 1, by simpa [Nat.succ_lt_succ_iff] using hi,
        by simpa [List.getD_cons_succ] using he⟩

theorem getD_zip {α β : Type} {g : List α} {t : List β} {i : Nat} (d₁ : α) (d₂ : β)
    (h₁ : i < g.length) (h₂ : i < t.length) :
    (g.zip t).getD i (d₁, d₂) = (g.getD i d₁, t.getD i d₂) := by
  induction g generalizing t i with
  | nil => simp at h₁
  | cons a g' ih =>
    cases t with
    | nil => simp at h₂
    | cons b t' =>
      cases i with
      | zero => simp [List.zip_cons_cons]
      | succ n =>
        simp only [List.zip_cons_cons, List.getD_cons_succ]
        exact ih (by simpa [Nat.succ_lt_succ_iff] using h₁)
          (by simpa [Nat.succ_lt_succ_iff] using h₂)

theorem take_zip_comm {α β : Type} (g : List α) (t : List β) (n : Nat) :
    (g.zip t).take n = (g.take n).zip (t.take n) := by
  induction g generalizing t n with
  | nil => simp
  | cons a g' ih =>
    cases t with
    | nil => simp
    | cons b t' =>
      cases n with
      | zero => simp
      | succ m => simp [List.zip_cons_cons, List.take_succ_cons, ih]

theorem getD_set_self {α : Type} {l : List α} {i : Nat} (a d : α) (h : i < l.length) :
    (l.set i a).getD i d = a := by
  induction l generalizing i with
  | nil => simp at h
  | cons b t ih =>
    cases i with
    | zero => simp
    | succ n =>
      simp only [List.set_cons_succ, List.getD_cons_succ]
      exact ih (by simpa [Nat.succ_lt_succ_iff] using h)

theorem getD_set_ne {α : Type} {l : List α} {i j : Nat} (a d : α) (h : i ≠ j) :
    (l.set i a).getD j d = l.getD j d := by
  induction l generalizing i j with
  | nil => simp
  | cons b t ih =>
    cases i with
    | zero =>
      cases j with
      | zero => exact absurd rfl h
      | succ m => simp [List.getD_cons_succ]
    | succ n =>
      cases j with
      | zero => simp
      | succ m =>
        simp only [List.set_cons_succ, List.getD_cons_succ]
        exact ih (by omega)

theorem filter_length_mono {α : Type} {p q : α → Bool} (l : List α)
    (h : ∀ a, p a = true → q a = true) :
    (l.filter p).length ≤ (l.filter q).length := by
  induction l with
  | nil => simp
  | cons a t ih =>
    by_cases hp : p a = true
    · have hq := h a hp
      simp only [List.filter_cons, hp, hq, if_true]
      simpa [Nat.succ_le_succ_iff] using ih
    · cases hq : q a <;>
        simp only [List.filter_cons, hp, hq, if_false, if_true] <;>
        [exact ih; exact ih.trans (Nat.le_succ _)]

theorem foldl_sublist {α ι : Type} (f : List α → ι → List α)
    (hf : ∀ cs i, (f cs i).Sublist cs) :
    ∀ (L : List ι) (cs : List α), (L.foldl f cs).Sublist cs := by
  intro L
  induction L with
  | nil => intro cs; exact List.Sublist.refl _
  | cons i L ih => intro cs; exact (ih (f cs i)).trans (hf cs i)

theorem foldl_mem {α ι : Type} (f : List α → ι → List α) (a : α) :
    ∀ (L : List ι) (cs : List α),
      (∀ i ∈ L, ∀ cs', a ∈ cs' → a ∈ f cs' i) → a ∈ cs → a ∈ L.foldl f cs := by
  intro L
  induction L with
  | nil => intro cs _ h; exact h
  | cons i L ih =>
    intro cs hstep hmem
    exact ih (f cs i) (fun j hj => hstep j (List.mem_cons_of_mem _ hj))
      (hstep i (List.mem_cons_self _ _) cs hmem)

/-! ### Properties of the modelled two-pass oracle -/

theorem pass2_length : ∀ (ps : List (Char × Char)) (avail : List Char),
    (pass2 ps avail).length = ps.length := by
  intro ps
  induction ps with
  | nil => intro avail; rfl
  | cons p rest ih =>
    intro avail
    simp only [pass2]
    split_ifs <;> simp [ih]

theorem pass2_getD_two : ∀ (ps : List (Char × Char)) (avail : List Char) (i : Nat),
    i < ps.length →
    ((pass2 ps avail).getD i ' ' = '2' ↔ (ps.getD i (' ', ' ')).1 = (ps.getD i (' ', ' ')).2) := by
  intro ps
  induction ps with
  | nil => intro avail i h; simp at h
  | cons p rest ih =>
    intro avail i h
    cases i with
    | zero =>
      simp only [pass2, List.getD_cons_zero]
      split_ifs with h1 h2
      · simp [h1]
      · exact iff_of_false (by simp) h1
      · exact iff_of_false (by simp) h1
    | succ n =>
      have hn : n < rest.length := by simpa [Nat.succ_lt_succ_iff] using h
      simp only [pass2]
      split_ifs <;> simp only [List.getD_cons_succ] <;> exact ih _ n hn

theorem pass2_getD_one : ∀ (ps : List (Char × Char)) (avail : List Char) (i : Nat),
    i < ps.length → (pass2 ps avail).getD i ' ' = '1' →
    (ps.getD i (' ', ' ')).1 ∈ avail ∧ (ps.getD i (' ', ' ')).1 ≠ (ps.getD i (' ', ' ')).2 := by
  intro ps
  induction ps with
  | nil => intro avail i h; simp at h
  | cons p rest ih =>
    intro avail i h hm
    cases i with
    | zero =>
      simp only [pass2, List.getD_cons_zero] at hm ⊢
      split_ifs at hm with h1 h2
      · simp at hm
      · exact ⟨h2, h1⟩
      · simp at hm
    | succ n =>
      have hn : n < rest.length := by simpa [Nat.succ_lt_succ_iff] using h
      simp only [pass2] at hm
      split_ifs at hm with h1 h2
      · simp only [List.getD_cons_succ] at hm ⊢
        exact ih avail n hn hm
      · simp only [List.getD_cons_succ] at hm ⊢
        have := ih (avail.erase p.1) n hn hm
        exact ⟨List.mem_of_mem_erase this.1, this.2⟩
      · simp only [List.getD_cons_succ] at hm ⊢
        exact ih avail n hn hm

theorem pass2_absent_not_mem : ∀ (ps : List (Char × Char)) (avail : List Char) (c : Char),
    (∃ j, j < ps.length ∧ (ps.getD j (' ', ' ')).1 = c) →
    (∀ j, j < ps.length → (ps.getD j (' ', ' ')).1 = c →
      (pass2 ps avail).getD j ' ' ≠ '1' ∧ (pass2 ps avail).getD j ' ' ≠ '2') →
    c ∉ avail := by
  intro ps
  induction ps with
  | nil => intro avail c hex _; obtain ⟨j, hj, -⟩ := hex; simp at hj
  | cons p rest ih =>
    intro avail c hex hall
    by_cases hp : p.1 = c
    · have h0 := hall 0 (by simp) (by simpa using hp)
      by_cases h1 : p.1 = p.2
      · exact absurd (by simp [pass2, h1]) h0.2
      · by_cases h2 : p.1 ∈ avail
        · exact absurd (by simp [pass2, h1, h2]) h0.1
        · subst hp; exact h2
    · obtain ⟨j, hj, hc⟩ := hex
      cases j with
      | zero => exact absurd (by simpa using hc) hp
      | succ n =>
        have hex' : ∃ j, j < rest.length ∧ (rest.getD j (' ', ' ')).1 = c :=
          ⟨n, by simpa [Nat.succ_lt_succ_iff] using hj,
            by simpa [List.getD_cons_succ] using hc⟩
        by_cases h1 : p.1 = p.2
        · refine ih avail c hex' ?_
          intro j hjl hjc
          have := hall (j + 1) (by simpa [Nat.succ_lt_succ_iff] using hjl)
            (by simpa [List.getD_cons_succ] using hjc)
          simpa [pass2, h1, List.getD_cons_succ] using this
        · by_cases h2 : p.1 ∈ avail
          · have hrec := ih (avail.erase p.1) c hex' ?_
            · intro hca
              exact hrec ((List.mem_erase_of_ne (fun he => hp he.symm)).mpr hca)
            · intro j hjl hjc
              have := hall (j + 1) (by simpa [Nat.succ_lt_succ_iff] using hjl)
                (by simpa [List.getD_cons_succ] using hjc)
              simpa [pass2, h1, h2, List.getD_cons_succ] using this
          · refine ih avail c hex' ?_
            intro j hjl hjc
            have := hall (j + 1) (by simpa [Nat.succ_lt_succ_iff] using hjl)
              (by simpa [List.getD_cons_succ] using hjc)
            simpa [pass2, h1, h2, List.getD_cons_succ] using this

theorem pass2_markCount_le : ∀ (ps : List (Char × Char)) (avail : List Char) (c : Char),
    (((ps.map Prod.fst).zip (pass2 ps avail)).filter fun q =>
        decide (q.1 = c ∧ (q.2 = '1' ∨ q.2 = '2'))).length ≤
      avail.count c + (ps.filter fun p => decide (p.1 = p.2 ∧ p.1 = c)).length := by
  intro ps
  induction ps with
  | nil => intro avail c; simp [pass2]
  | cons p rest ih =>
    intro avail c
    rw [List.map_cons]
    by_cases h1 : p.1 = p.2
    · -- exact match, mark '2'
      have hp2 : pass2 (p :: rest) avail = '2' :: pass2 rest avail := by simp [pass2, h1]
      rw [hp2, List.zip_cons_cons]
      have hx := ih avail c
      by_cases hc : p.1 = c
      · have hf1 : (((p.1, '2') :: (List.map Prod.fst rest).zip (pass2 rest avail)).filter
              fun q => decide (q.1 = c ∧ (q.2 = '1' ∨ q.2 = '2'))).length
            = (((List.map Prod.fst rest).zip (pass2 rest avail)).filter
              fun q => decide (q.1 = c ∧ (q.2 = '1' ∨ q.2 = '2'))).length + 1 := by
          simp [List.filter_cons, hc]
        have h2c : p.2 = c := h1 ▸ hc
        have hf2 : ((p :: rest).filter fun q => decide (q.1 = q.2 ∧ q.1 = c)).length
            = (rest.filter fun q => decide (q.1 = q.2 ∧ q.1 = c)).length + 1 := by
          simp [List.filter_cons, h1, hc, h2c]
        rw [hf1, hf2]
        omega
      · have hf1 : (((p.1, '2') :: (List.map Prod.fst rest).zip (pass2 rest avail)).filter
              fun q => decide (q.1 = c ∧ (q.2 = '1' ∨ q.2 = '2'))).length
            = (((List.map Prod.fst rest).zip (pass2 rest avail)).filter
              fun q => decide (q.1 = c ∧ (q.2 = '1' ∨ q.2 = '2'))).length := by
          simp [List.filter_cons, hc]
        have hf2 : ((p :: rest).filter fun q => decide (q.1 = q.2 ∧ q.1 = c)).length
            = (rest.filter fun q => decide (q.1 = q.2 ∧ q.1 = c)).length := by
          simp [List.filter_cons, hc]
        rw [hf1, hf2]
        omega
    · by_cases h2 : p.1 ∈ avail
      · -- mark '1', consuming one unmatched occurrence
        have hp2 : pass2 (p :: rest) avail = '1' :: pass2 rest (avail.erase p.1) := by
          simp [pass2, h1, h2]
        rw [hp2, List.zip_cons_cons]
        have hx := ih (avail.erase p.1) c
        have hf2 : ((p :: rest).filter fun q => decide (q.1 = q.2 ∧ q.1 = c)).length
            = (rest.filter fun q => decide (q.1 = q.2 ∧ q.1 = c)).length := by
          simp [List.filter_cons, h1]
        by_cases hc : p.1 = c
        · have hcnt : 0 < avail.count c := List.count_pos_iff.mpr (hc ▸ h2)
          have hce : (avail.erase p.1).count c = avail.count c - 1 := by
            rw [← hc]; exact List.count_erase_self _ _
          have hf1 : (((p.1, '1') :: (List.map Prod.fst rest).zip
                (pass2 rest (avail.erase p.1))).filter
                fun q => decide (q.1 = c ∧ (q.2 = '1' ∨ q.2 = '2'))).length
              = (((List.map Prod.fst rest).zip (pass2 rest (avail.erase p.1))).filter
                fun q => decide (q.1 = c ∧ (q.2 = '1' ∨ q.2 = '2'))).length + 1 := by
            simp [List.filter_cons, hc]
          rw [hf1, hf2]
          omega
        · have hce : (avail.erase p.1).count c = avail.count c :=
            List.count_erase_of_ne (fun he => hc he.symm) avail
          have hf1 : (((p.1, '1') :: (List.map Prod.fst rest).zip
                (pass2 rest (avail.erase p.1))).filter
                fun q => decide (q.1 = c ∧ (q.2 = '1' ∨ q.2 = '2'))).length
              = (((List.map Prod.fst rest).zip (pass2 rest (avail.erase p.1))).filter
                fun q => decide (q.1 = c ∧ (q.2 = '1' ∨ q.2 = '2'))).length := by
            simp [List.filter_cons, hc]
          rw [hf1, hf2]
          omega
      · -- mark '0'
        have hp2 : pass2 (p :: rest) avail = '0' :: pass2 rest avail := by
          simp [pass2, h1, h2]
        rw [hp2, List.zip_cons_cons]
        have hx := ih avail c
        have hf1 : (((p.1, '0') :: (List.map Prod.fst rest).zip (pass2 rest avail)).filter
              fun q => decide (q.1 = c ∧ (q.2 = '1' ∨ q.2 = '2'))).length
            = (((List.map Prod.fst rest).zip (pass2 rest avail)).filter
              fun q => decide (q.1 = c ∧ (q.2 = '1' ∨ q.2 = '2'))).length := by
          simp [List.filter_cons]
        have hf2 : ((p :: rest).filter fun q => decide (q.1 = q.2 ∧ q.1 = c)).length
            = (rest.filter fun q => decide (q.1 = q.2 ∧ q.1 = c)).length := by
          simp [List.filter_cons, h1]
        rw [hf1, hf2]
        omega

theorem unmatched_decomp : ∀ (ps : List (Char × Char)) (c : Char),
    (unmatched_targets ps).count c +
        (ps.filter fun p => decide (p.1 = p.2 ∧ p.1 = c)).length
      = (ps.map Prod.snd).count c := by
  intro ps
  induction ps with
  | nil => intro c; simp [unmatched_targets]
  | cons p rest ih =>
    intro c
    have hrec := ih c
    rw [List.map_cons]
    by_cases h1 : p.1 = p.2
    · have hu : unmatched_targets (p :: rest) = unmatched_targets rest := by
        simp [unmatched_targets, List.filterMap_cons, h1]
      rw [hu]
      by_cases hc : p.1 = c
      · have h2c : p.2 = c := h1 ▸ hc
        have hf : ((p :: rest).filter fun q => decide (q.1 = q.2 ∧ q.1 = c)).length
            = (rest.filter fun q => decide (q.1 = q.2 ∧ q.1 = c)).length + 1 := by
          simp [List.filter_cons, h1, hc, h2c]
        have hm : (p.2 :: rest.map Prod.snd).count c = (rest.map Prod.snd).count c + 1 := by
          simp [List.count_cons, h2c]
        rw [hf, hm]
        omega
      · have h2c : ¬(p.2 = c) := fun h => hc (h1.trans h)
        have hf : ((p :: rest).filter fun q => decide (q.1 = q.2 ∧ q.1 = c)).length
            = (rest.filter fun q => decide (q.1 = q.2 ∧ q.1 = c)).length := by
          simp [List.filter_cons, hc]
        have hm : (p.2 :: rest.map Prod.snd).count c = (rest.map Prod.snd).count c := by
          simp [List.count_cons, h2c]
        rw [hf, hm]
        omega
    · have hu : unmatched_targets (p :: rest) = p.2 :: unmatched_targets rest := by
        simp [unmatched_targets, List.filterMap_cons, h1]
      rw [hu]
      have hf : ((p :: rest).filter fun q => decide (q.1 = q.2 ∧ q.1 = c)).length
          = (rest.filter fun q => decide (q.1 = q.2 ∧ q.1 = c)).length := by
        simp [List.filter_cons, h1]
      rw [hf]
      by_cases htc : p.2 = c
      · have hm : (p.2 :: rest.map Prod.snd).count c = (rest.map Prod.snd).count c + 1 := by
          simp [List.count_cons, htc]
        have hm2 : (p.2 :: unmatched_targets rest).count c
            = (unmatched_targets rest).count c + 1 := by
          simp [List.count_cons, htc]
        rw [hm, hm2]
        omega
      · have hm : (p.2 :: rest.map Prod.snd).count c = (rest.map Prod.snd).count c := by
          simp [List.count_cons, htc]
        have hm2 : (p.2 :: unmatched_targets rest).count c
            = (unmatched_targets rest).count c := by
          simp [List.count_cons, htc]
        rw [hm, hm2]
        omega

/-! ### Index-level facts about `response_to_guess` for equal-length words -/

theorem response_length (g t : Word) (hlen : g.length = t.length) :
    (response_to_guess g t).length = g.length := by
  unfold response_to_guess
  rw [pass2_length, List.length_zip, hlen, min_self]

theorem zip_length_of_eq {g t : Word} (hlen : g.length = t.length) :
    (g.zip t).length = g.length := by
  rw [List.length_zip, hlen, min_self]

theorem response_getD_two {g t : Word} (hlen : g.length = t.length) {i : Nat}
    (hi : i < g.length) :
    ((response_to_guess g t).getD i ' ' = '2' ↔ g.getD i ' ' = t.getD i ' ') := by
  have hzl : i < (g.zip t).length := by rw [zip_length_of_eq hlen]; exact hi
  have h := pass2_getD_two (g.zip t) (unmatched_targets (g.zip t)) i hzl
  rw [getD_zip ' ' ' ' hi (hlen ▸ hi)] at h
  exact h

theorem response_getD_one {g t : Word} (hlen : g.length = t.length) {i : Nat}
    (hi : i < g.length) (hm : (response_to_guess g t).getD i ' ' = '1') :
    g.getD i ' ' ∈ t ∧ t.getD i ' ' ≠ g.getD i ' ' := by
  have hzl : i < (g.zip t).length := by rw [zip_length_of_eq hlen]; exact hi
  have h := pass2_getD_one (g.zip t) (unmatched_targets (g.zip t)) i hzl hm
  rw [getD_zip ' ' ' ' hi (hlen ▸ hi)] at h
  refine ⟨?_, fun he => h.2 he.symm⟩
  obtain ⟨q, hq, he⟩ := List.mem_filterMap.mp h.1
  obtain ⟨a, b⟩ := q
  by_cases hqe : a = b
  · rw [if_pos hqe] at he; exact absurd he (by simp)
  · rw [if_neg hqe] at he
    have hb : b ∈ t := (List.of_mem_zip hq).2
    have he' : b = List.getD g i ' ' := by simpa using he
    exact he' ▸ hb

theorem response_absent {g t : Word} (hlen : g.length = t.length) {i : Nat}
    (hi : i < g.length)
    (hall : ∀ j, j < g.length → g.getD j ' ' = g.getD i ' ' →
      (response_to_guess g t).getD j ' ' ≠ '1' ∧ (response_to_guess g t).getD j ' ' ≠ '2') :
    g.getD i ' ' ∉ t := by
  have hzlen : (g.zip t).length = g.length := zip_length_of_eq hlen
  have hnot : g.getD i ' ' ∉ unmatched_targets (g.zip t) := by
    apply pass2_absent_not_mem (g.zip t) _ (g.getD i ' ')
    · exact ⟨i, by rw [hzlen]; exact hi, by rw [getD_zip ' ' ' ' hi (hlen ▸ hi)]⟩
    · intro j hj hjc
      have hjg : j < g.length := hzlen ▸ hj
      rw [getD_zip ' ' ' ' hjg (hlen ▸ hjg)] at hjc
      exact hall j hjg hjc
  intro hmem
  obtain ⟨j, hjt, hjd⟩ := exists_getD_of_mem ' ' hmem
  have hjg : j < g.length := by omega
  by_cases hgj : g.getD j ' ' = g.getD i ' '
  · have h2 : (response_to_guess g t).getD j ' ' = '2' :=
      (response_getD_two hlen hjg).mpr (by rw [hgj, hjd])
    exact (hall j hjg hgj).2 h2
  · apply hnot
    apply List.mem_filterMap.mpr
    refine ⟨(g.getD j ' ', t.getD j ' '), ?_, ?_⟩
    · rw [← getD_zip ' ' ' ' hjg hjt]
      exact getD_mem (' ', ' ') (by rw [hzlen]; exact hjg)
    · rw [if_neg (fun he => hgj (he.trans hjd))]
      rw [hjd]

theorem response_required_le {g t : Word} (hlen : g.length = t.length) (c : Char) :
    char_required_count g (response_to_guess g t) c ≤ t.count c := by
  have hfst : (g.zip t).map Prod.fst = g := List.map_fst_zip g t (le_of_eq hlen)
  have hkey := pass2_markCount_le (g.zip t) (unmatched_targets (g.zip t)) c
  rw [hfst] at hkey
  have hmono : char_required_count g (response_to_guess g t) c ≤
      ((g.zip (pass2 (g.zip t) (unmatched_targets (g.zip t)))).filter fun q =>
        decide (q.1 = c ∧ (q.2 = '1' ∨ q.2 = '2'))).length := by
    unfold char_required_count
    apply filter_length_mono
    intro a ha
    have hp := of_decide_eq_true ha
    exact decide_eq_true ⟨hp.2.2, hp.1⟩
  have hdec := unmatched_decomp (g.zip t) c
  have hsnd : (g.zip t).map Prod.snd = t := List.map_snd_zip g t (le_of_eq hlen.symm)
  rw [hsnd] at hdec
  omega

/-! ### Structural facts about `adjust_candidates` -/

theorem filterStep_sublist (g r : List Char) (i : Nat) (cs : List Word) :
    (filterStep g r i cs).Sublist cs := by
  simp only [filterStep]
  split_ifs <;> first
    | exact List.filter_sublist _
    | exact List.Sublist.refl _

theorem position_filters_sublist (g r : List Char) (cs : List Word) :
    (position_filters g r cs).Sublist cs :=
  foldl_sublist _ (fun cs' i => filterStep_sublist g r i cs') _ cs

theorem adjust_candidates_sublist (g r : List Char) (cs : List Word) :
    (adjust_candidates g r cs).Sublist cs := by
  unfold adjust_candidates
  exact (List.erase_sublist _ _).trans
    ((List.filter_sublist _).trans (position_filters_sublist g r cs))

theorem adjust_candidates_count_lt (g r : List Char) (cs : List Word) (hg : g ∈ cs) :
    (adjust_candidates g r cs).count g < cs.count g := by
  unfold adjust_candidates
  have hAsub : ((position_filters g r cs).filter fun cand =>
      meets_required_counts g r cand).Sublist cs :=
    (List.filter_sublist _).trans (position_filters_sublist g r cs)
  have hAle := hAsub.count_le g
  have hpos : 0 < cs.count g := List.count_pos_iff.mpr hg
  by_cases hgA : g ∈ (position_filters g r cs).filter fun cand =>
      meets_required_counts g r cand
  · have hApos : 0 < ((position_filters g r cs).filter fun cand =>
        meets_required_counts g r cand).count g := List.count_pos_iff.mpr hgA
    rw [List.count_erase_self]
    omega
  · rw [List.erase_of_not_mem hgA]
    have hz : ((position_filters g r cs).filter fun cand =>
        meets_required_counts g r cand).count g = 0 := List.count_eq_zero.mpr hgA
    omega

theorem adjust_candidates_length_lt (g r : List Char) (cs : List Word) (hg : g ∈ cs) :
    (adjust_candidates g r cs).length < cs.length := by
  have hsub := adjust_candidates_sublist g r cs
  have hcnt := adjust_candidates_count_lt g r cs hg
  rcases lt_or_eq_of_le hsub.length_le with h | h
  · exact h
  · exact absurd (hsub.eq_of_length h)
      (fun he => by rw [he] at hcnt; exact lt_irrefl _ hcnt)

theorem adjust_candidates_not_mem_guess (g r : List Char) (cs : List Word)
    (hcnt : cs.count g ≤ 1) : g ∉ adjust_candidates g r cs := by
  intro hmem
  have h := adjust_candidates_count_lt g r cs (adjust_candidates_sublist g r cs |>.subset hmem)
  have := List.count_pos_iff.mpr hmem
  omega

theorem char_required_count_eq_zero {g r : List Char} {c : Char} (hc : c ∉ g) :
    char_required_count g r c = 0 := by
  unfold char_required_count
  rw [List.length_eq_zero, List.filter_eq_nil_iff]
  intro a ha hpa
  obtain ⟨x, y⟩ := a
  have hax : x ∈ g := (List.of_mem_zip ha).1
  have := (of_decide_eq_true hpa).2.2
  exact hc (this ▸ hax)

theorem mem_adjust_meets {g r : List Char} {cs : List Word} {cand : Word}
    (h : cand ∈ adjust_candidates g r cs) :
    ∀ c, char_required_count g r c ≤ cand.count c := by
  unfold adjust_candidates at h
  have h1 : cand ∈ (position_filters g r cs).filter fun cand =>
      meets_required_counts g r cand := List.mem_of_mem_erase h
  have h2 := (List.mem_filter.mp h1).2
  simp only [meets_required_counts] at h2
  have h3 := of_decide_eq_true h2
  intro c
  by_cases hcg : c ∈ g
  · exact h3 c hcg
  · rw [char_required_count_eq_zero hcg]
    exact Nat.zero_le _

theorem target_mem_position_filters {g t : Word} (hlen : g.length = t.length)
    {cs : List Word} (hmem : t ∈ cs) :
    t ∈ position_filters g (response_to_guess g t) cs := by
  unfold position_filters
  apply foldl_mem _ _ _ _ _ hmem
  intro i hi cs' hmem'
  rw [List.mem_range, response_length g t hlen] at hi
  simp only [filterStep]
  split_ifs with h2 h1 h0 hv
  · exact List.mem_filter.mpr ⟨hmem',
      decide_eq_true ((response_getD_two hlen hi).mp h2).symm⟩
  · exact List.mem_filter.mpr ⟨hmem', decide_eq_true (response_getD_one hlen hi h1)⟩
  · refine List.mem_filter.mpr ⟨hmem', decide_eq_true ?_⟩
    apply response_absent hlen hi
    intro j hj hje
    have hv' := List.all_eq_true.mp hv j
      (List.mem_filter.mpr ⟨List.mem_range.mpr hj, decide_eq_true hje⟩)
    have hparts := of_decide_eq_true hv'
    exact ⟨hparts.2, hparts.1⟩
  · exact hmem'
  · exact hmem'

theorem adjust_candidates_target_mem {g t : Word} (hlen : g.length = t.length)
    (hne : g ≠ t) {cs : List Word} (hmem : t ∈ cs) :
    t ∈ adjust_candidates g (response_to_guess g t) cs := by
  unfold adjust_candidates
  apply (List.mem_erase_of_ne (fun he => hne he.symm)).mpr
  apply List.mem_filter.mpr
  refine ⟨target_mem_position_filters hlen hmem, ?_⟩
  simp only [meets_required_counts]
  exact decide_eq_true (fun c _ => response_required_le hlen c)

/-! ### Characterization of `update_game_state` -/

theorem ugsAux_cons (st : PlayerState) (p : Char × Char) (rest : List (Char × Char)) (i : Nat) :
    ugsAux st (p :: rest) i =
      ugsAux
        (if p.2 = '2' then
          { st with correct_positions := st.correct_positions.set i (some p.1) }
        else if p.2 = '1' ∧ some p.1 ∉ st.correct_positions then
          (if p.1 ∈ st.misplaced_letters then st
           else { st with misplaced_letters := st.misplaced_letters ++ [p.1] })
        else st) rest (i + 1) := rfl

theorem ugsAux_correct_length : ∀ (ps : List (Char × Char)) (st : PlayerState) (i : Nat),
    (ugsAux st ps i).correct_positions.length = st.correct_positions.length := by
  intro ps
  induction ps with
  | nil => intros; rfl
  | cons p rest ih =>
    intro st i
    rw [ugsAux_cons]
    split_ifs <;> simp [ih, List.length_set]

theorem ugsAux_correct_getD_lt : ∀ (ps : List (Char × Char)) (st : PlayerState)
    (i idx : Nat) (d : Option Char), idx < i →
    (ugsAux st ps i).correct_positions.getD idx d = st.correct_positions.getD idx d := by
  intro ps
  induction ps with
  | nil => intros; rfl
  | cons p rest ih =>
    intro st i idx d hlt
    rw [ugsAux_cons]
    split_ifs with h1 h2 h3
    · rw [ih _ _ _ _ (by omega)]
      exact getD_set_ne _ _ (by omega)
    · exact ih _ _ _ _ (by omega)
    · rw [ih _ _ _ _ (by omega)]
    · exact ih _ _ _ _ (by omega)

theorem ugsAux_correct_getD : ∀ (ps : List (Char × Char)) (st : PlayerState) (i j : Nat),
    j < ps.length → i + ps.length ≤ st.correct_positions.length →
    (ugsAux st ps i).correct_positions.getD (i + j) none =
      if (ps.getD j (' ', ' ')).2 = '2' then some (ps.getD j (' ', ' ')).1
      else st.correct_positions.getD (i + j) none := by
  intro ps
  induction ps with
  | nil => intro st i j hj _; simp at hj
  | cons p rest ih =>
    intro st i j hj hlen
    simp only [List.length_cons] at hlen
    rw [ugsAux_cons]
    cases j with
    | zero =>
      simp only [Nat.add_zero, List.getD_cons_zero]
      by_cases h1 : p.2 = '2'
      · rw [if_pos h1, if_pos h1,
          ugsAux_correct_getD_lt _ _ _ _ _ (Nat.lt_succ_self i)]
        exact getD_set_self _ _ (by omega)
      · rw [if_neg h1, if_neg h1]
        by_cases h2 : p.2 = '1' ∧ some p.1 ∉ st.correct_positions
        · rw [if_pos h2]
          by_cases h3 : p.1 ∈ st.misplaced_letters
          · rw [if_pos h3]
            exact ugsAux_correct_getD_lt _ _ _ _ _ (Nat.lt_succ_self i)
          · rw [if_neg h3,
              ugsAux_correct_getD_lt _ _ _ _ _ (Nat.lt_succ_self i)]
        · rw [if_neg h2]
          exact ugsAux_correct_getD_lt _ _ _ _ _ (Nat.lt_succ_self i)
    | succ n =>
      have hn : n < rest.length := by simpa [Nat.succ_lt_succ_iff] using hj
      rw [List.getD_cons_succ, show i + (n + 1) = (i + 1) + n by omega]
      by_cases h1 : p.2 = '2'
      · rw [if_pos h1, ih _ (i + 1) n hn (by simp only [List.length_set]; omega)]
        by_cases hr2 : (rest.getD n (' ', ' ')).2 = '2'
        · rw [if_pos hr2, if_pos hr2]
        · rw [if_neg hr2, if_neg hr2]
          exact getD_set_ne _ _ (by omega)
      · rw [if_neg h1]
        by_cases h2 : p.2 = '1' ∧ some p.1 ∉ st.correct_positions
        · rw [if_pos h2]
          by_cases h3 : p.1 ∈ st.misplaced_letters
          · rw [if_pos h3]
            exact ih _ (i + 1) n hn (by omega)
          · rw [if_neg h3, ih { st with misplaced_letters := st.misplaced_letters ++ [p.1] }
              (i + 1) n hn
              (show (i + 1) + rest.length ≤ st.correct_positions.length by omega)]
        · rw [if_neg h2]
          exact ih _ (i + 1) n hn (by omega)

theorem ugsAux_misplaced_mem : ∀ (ps : List (Char × Char)) (st : PlayerState) (i : Nat)
    (c : Char),
    c ∈ (ugsAux st ps i).misplaced_letters ↔
      c ∈ st.misplaced_letters ∨ ∃ j, j < ps.length ∧ (ps.getD j (' ', ' ')).2 = '1' ∧
        (ps.getD j (' ', ' ')).1 = c ∧
        some c ∉ (ugsAux st (ps.take j) i).correct_positions := by
  intro ps
  induction ps with
  | nil => intro st i c; simp [ugsAux]
  | cons p rest ih =>
    intro st i c
    rw [ugsAux_cons, ih]
    simp only [← ugsAux_cons]
    have hsplit : (∃ j, j < (p :: rest).length ∧ ((p :: rest).getD j (' ', ' ')).2 = '1' ∧
        ((p :: rest).getD j (' ', ' ')).1 = c ∧
        some c ∉ (ugsAux st ((p :: rest).take j) i).correct_positions) ↔
        ((p.2 = '1' ∧ p.1 = c ∧ some c ∉ st.correct_positions) ∨
          (∃ n, n < rest.length ∧ (rest.getD n (' ', ' ')).2 = '1' ∧
            (rest.getD n (' ', ' ')).1 = c ∧
            some c ∉ (ugsAux st (p :: rest.take n) i).correct_positions)) := by
      constructor
      · rintro ⟨j, hj, hq1, hq2, hq3⟩
        cases j with
        | zero =>
          left
          exact ⟨by simpa using hq1, by simpa using hq2, by simpa [ugsAux] using hq3⟩
        | succ n =>
          right
          refine ⟨n, by simpa [Nat.succ_lt_succ_iff] using hj,
            by simpa [List.getD_cons_succ] using hq1,
            by simpa [List.getD_cons_succ] using hq2, ?_⟩
          rw [List.take_succ_cons] at hq3
          exact hq3
      · rintro (⟨h1', h2', h3'⟩ | ⟨n, hn, hq1, hq2, hq3⟩)
        · exact ⟨0, by simp, by simpa using h1', by simpa using h2',
            by simpa [ugsAux] using h3'⟩
        · refine ⟨n + 1, by simpa [Nat.succ_lt_succ_iff] using hn,
            by simpa [List.getD_cons_succ] using hq1,
            by simpa [List.getD_cons_succ] using hq2, ?_⟩
          rw [List.take_succ_cons]
          exact hq3
    rw [hsplit]
    split_ifs with h1 h2 h3
    · -- CORRECT position: misplaced letters unchanged, head disjunct impossible
      have hno : ¬(p.2 = '1' ∧ p.1 = c ∧ some c ∉ st.correct_positions) := by
        rintro ⟨hx, -, -⟩; rw [h1] at hx; exact absurd hx (by simp)
      constructor
      · rintro (h | h)
        · exact Or.inl h
        · exact Or.inr (Or.inr h)
      · rintro (h | h | h)
        · exact Or.inl h
        · exact absurd h hno
        · exact Or.inr h
    · -- MISPLACED, letter already confirmed or already recorded: no change
      have habs : (p.2 = '1' ∧ p.1 = c ∧ some c ∉ st.correct_positions) →
          c ∈ st.misplaced_letters := by
        rintro ⟨-, hx, -⟩; rw [← hx]; exact h3
      constructor
      · rintro (h | h)
        · exact Or.inl h
        · exact Or.inr (Or.inr h)
      · rintro (h | h | h)
        · exact Or.inl h
        · exact Or.inl (habs h)
        · exact Or.inr h
    · -- MISPLACED, genuinely new letter: appended
      have hmem : c ∈ st.misplaced_letters ++ [p.1] ↔
          c ∈ st.misplaced_letters ∨ c = p.1 := by simp
      have hp0 : (p.2 = '1' ∧ p.1 = c ∧ some c ∉ st.correct_positions) ↔ c = p.1 := by
        constructor
        · rintro ⟨-, hx, -⟩; exact hx.symm
        · rintro rfl; exact ⟨h2.1, rfl, h2.2⟩
      constructor
      · rintro (h | h)
        · rcases hmem.mp h with hx | hx
          · exact Or.inl hx
          · exact Or.inr (Or.inl (hp0.mpr hx))
        · exact Or.inr (Or.inr h)
      · rintro (h | h | h)
        · exact Or.inl (hmem.mpr (Or.inl h))
        · exact Or.inl (hmem.mpr (Or.inr (hp0.mp h)))
        · exact Or.inr h
    · -- ABSENT or inapplicable: no change, head disjunct impossible
      have hno : ¬(p.2 = '1' ∧ p.1 = c ∧ some c ∉ st.correct_positions) := by
        rintro ⟨hx, hy, hz⟩
        exact h2 ⟨hx, by rw [hy]; exact hz⟩
      constructor
      · rintro (h | h)
        · exact Or.inl h
        · exact Or.inr (Or.inr h)
      · rintro (h | h | h)
        · exact Or.inl h
        · exact absurd h hno
        · exact Or.inr h

theorem ugsAux_id_of_no_marks : ∀ (ps : List (Char × Char)) (st : PlayerState) (i : Nat),
    (∀ p ∈ ps, p.2 ≠ '1' ∧ p.2 ≠ '2') → ugsAux st ps i = st := by
  intro ps
  induction ps with
  | nil => intros; rfl
  | cons p rest ih =>
    intro st i h
    have hp := h p (List.mem_cons_self _ _)
    rw [ugsAux_cons, if_neg hp.2, if_neg (fun hb => hp.1 hb.1)]
    exact ih _ _ (fun q hq => h q (List.mem_cons_of_mem _ hq))

/-! ### Characterization of `is_guess_valid` -/

theorem zip_all_correct_iff : ∀ (g : List Char) (cp : List (Option Char)),
    g.length = cp.length →
    (((g.zip cp).all fun p => match p.2 with
        | some c => decide (p.1 = c)
        | none => true) = true ↔
      ∀ i c, i < g.length → cp.getD i none = some c → g.getD i ' ' = c) := by
  intro g
  induction g with
  | nil =>
    intro cp h
    constructor
    · intro _ i c hi _
      exact absurd hi (by simp)
    · intro _; rfl
  | cons a g' ih =>
    intro cp h
    cases cp with
    | nil => simp at h
    | cons o cp' =>
      have h' : g'.length = cp'.length := by simpa using h
      rw [List.zip_cons_cons, List.all_cons, Bool.and_eq_true, ih cp' h']
      constructor
      · rintro ⟨hhead, htail⟩ i c hi hc
        cases i with
        | zero =>
          rw [List.getD_cons_zero] at hc ⊢
          rw [hc] at hhead
          exact of_decide_eq_true hhead
        | succ n =>
          rw [List.getD_cons_succ] at hc ⊢
          refine htail n c ?_ hc
          simp only [List.length_cons] at hi
          omega
      · intro hall
        constructor
        · cases ho : o with
          | none => rfl
          | some c =>
            exact decide_eq_true (hall 0 c (by simp) (by rw [List.getD_cons_zero, ho]))
        · intro i c hi hc
          refine hall (i + 1) c ?_ (by rw [List.getD_cons_succ]; exact hc)
          simp only [List.length_cons]
          omega

theorem is_guess_valid_iff (st : PlayerState) (guess : Word)
    (h : guess.length = st.correct_positions.length) :
    is_guess_valid st guess = true ↔
      ((∀ i c, i < guess.length → st.correct_positions.getD i none = some c →
          guess.getD i ' ' = c) ∧
        ∀ c ∈ st.misplaced_letters, c ∈ guess) := by
  unfold is_guess_valid
  rw [Bool.and_eq_true, zip_all_correct_iff guess st.correct_positions h,
    List.all_eq_true]
  apply and_congr_right
  intro _
  constructor
  · intro hx c hc; exact of_decide_eq_true (hx c hc)
  · intro hx c hc; exact decide_eq_true (hx c hc)

/-! ### The solver loop -/

theorem selectGuess_eq_generate (pick : List Word → Word) (fg : Option Word) (n : Nat)
    (cands att : List Word) (st : PlayerState) (h : fg = none ∨ 1 ≤ n) :
    selectGuess pick fg (n + 1) cands att st = generate_hard_mode_guess pick cands att st := by
  cases fg with
  | none => rfl
  | some f =>
    rcases h with h | h
    · exact absurd h (by simp)
    · simp only [selectGuess]
      rw [if_neg (show ¬(n + 1 = 1) by omega)]

theorem generate_ok_mem {pick : List Word → Word} {cands att : List Word}
    {st : PlayerState} {guess : Word}
    (hpick : ∀ l : List Word, l ≠ [] → pick l ∈ l)
    (h : generate_hard_mode_guess pick cands att st = Except.ok guess) :
    guess ∈ cands := by
  unfold generate_hard_mode_guess at h
  by_cases hv : cands.filter (fun w => is_guess_valid st w && decide (w ∉ att)) = []
  · rw [if_pos hv] at h
    exact absurd h (by simp)
  · rw [if_neg hv] at h
    have hm := hpick _ hv
    have hg : pick (cands.filter fun w => is_guess_valid st w && decide (w ∉ att)) = guess := by
      simpa using h
    rw [← hg]
    exact (List.mem_filter.mp hm).1

theorem playLoop_no_fuel_out :
    ∀ (fuel : Nat) (pick : List Word → Word) (target : Word) (fg : Option Word)
      (n : Nat) (cands att : List Word) (tr : List (Word × Feedback)) (st : PlayerState),
      (∀ l : List Word, l ≠ [] → pick l ∈ l) →
      (fg = none ∨ 1 ≤ n) → cands.length ≤ fuel →
      playLoop pick target fg fuel n cands att tr st ≠ PlayResult.outOfFuel ∧
      guessCount (playLoop pick target fg fuel n cands att tr st) ≤ n + cands.length := by
  intro fuel
  induction fuel with
  | zero =>
    intro pick target fg n cands att tr st hpick hfg hlen
    have hc : cands = [] := List.length_eq_zero.mp (by omega)
    subst hc
    exact ⟨by simp [playLoop], by simp [playLoop, guessCount]⟩
  | succ fuel ih =>
    intro pick target fg n cands att tr st hpick hfg hlen
    by_cases hc : 1 ≤ cands.length
    · simp only [playLoop]
      rw [if_pos hc, selectGuess_eq_generate pick fg n cands att st hfg]
      cases hgen : generate_hard_mode_guess pick cands att st with
      | error e => exact ⟨by simp, by simp [guessCount]⟩
      | ok g =>
        dsimp only
        have hmem := generate_ok_mem hpick hgen
        by_cases hwin : is_correct_response (response_to_guess g target) = true
        · rw [if_pos hwin]
          exact ⟨by simp, by simp [guessCount]; omega⟩
        · rw [if_neg hwin]
          have hlt := adjust_candidates_length_lt g (response_to_guess g target) cands hmem
          by_cases hce : (adjust_candidates g (response_to_guess g target) cands).length = 0
          · rw [if_pos hce]
            exact ⟨by simp, by simp [guessCount]; omega⟩
          · rw [if_neg hce]
            have hrec := ih pick target fg (n + 1)
              (adjust_candidates g (response_to_guess g target) cands)
              (att.insert g) (tr ++ [(g, response_to_guess g target)])
              (update_game_state st g (response_to_guess g target))
              hpick (Or.inr (by omega)) (by omega)
            exact ⟨hrec.1, by have h2 := hrec.2; omega⟩
    · have hc0 : cands.length = 0 := by omega
      simp only [playLoop]
      rw [if_neg hc]
      exact ⟨by simp, by simp [guessCount]⟩

theorem pickHead_mem : ∀ l : List Word, l ≠ [] → pickHead l ∈ l := by
  intro l hl
  cases l with
  | nil => exact absurd rfl hl
  | cons a t => exact List.mem_cons_self a t

theorem play_spec (k : Nat) (pick : List Word → Word) (words : List Word)
    (target : Word) (fg : Option Word)
    (hpick : ∀ l : List Word, l ≠ [] → pick l ∈ l) :
    play k pick words target fg ≠ PlayResult.outOfFuel ∧
    guessCount (play k pick words target fg) ≤ words.length + 1 ∧
    (fg = none → guessCount (play k pick words target fg) ≤ words.length) := by
  unfold play
  have hClen : (words.map (List.map Char.toLower)).length = words.length :=
    List.length_map _ _
  cases fg with
  | none =>
    simp only [Option.map_none']
    have h := playLoop_no_fuel_out ((words.map (List.map Char.toLower)).length + 1) pick
      (target.map Char.toLower) none 0 (words.map (List.map Char.toLower)) [] [] (reset k)
      hpick (Or.inl rfl) (by omega)
    exact ⟨h.1, by have h2 := h.2; omega, fun _ => by have h2 := h.2; omega⟩
  | some f =>
    simp only [Option.map_some']
    by_cases hC : 1 ≤ (words.map (List.map Char.toLower)).length
    · simp only [playLoop]
      rw [if_pos hC]
      simp only [selectGuess]
      rw [if_pos trivial]
      dsimp only
      by_cases hwin : is_correct_response (response_to_guess (List.map Char.toLower f)
          (target.map Char.toLower)) = true
      · rw [if_pos hwin]
        exact ⟨by simp, by simp only [guessCount]; omega, fun hcon => absurd hcon (by simp)⟩
      · rw [if_neg hwin]
        have hsublen := (adjust_candidates_sublist (List.map Char.toLower f)
          (response_to_guess (List.map Char.toLower f) (target.map Char.toLower))
          (words.map (List.map Char.toLower))).length_le
        by_cases hce : (adjust_candidates (List.map Char.toLower f)
            (response_to_guess (List.map Char.toLower f) (target.map Char.toLower))
            (words.map (List.map Char.toLower))).length = 0
        · rw [if_pos hce]
          exact ⟨by simp, by simp only [guessCount]; omega, fun hcon => absurd hcon (by simp)⟩
        · rw [if_neg hce]
          have h := playLoop_no_fuel_out ((words.map (List.map Char.toLower)).length) pick
            (target.map Char.toLower) (some (List.map Char.toLower f)) (0 + 1)
            (adjust_candidates (List.map Char.toLower f)
              (response_to_guess (List.map Char.toLower f) (target.map Char.toLower))
              (words.map (List.map Char.toLower)))
            (([] : List Word).insert (List.map Char.toLower f))
            ([] ++ [(List.map Char.toLower f,
              response_to_guess (List.map Char.toLower f) (target.map Char.toLower))])
            (update_game_state (reset k) (List.map Char.toLower f)
              (response_to_guess (List.map Char.toLower f) (target.map Char.toLower)))
            hpick (Or.inr (by omega)) (by omega)
          exact ⟨h.1, by have h2 := h.2; omega, fun hcon => absurd hcon (by simp)⟩
    · simp only [playLoop]
      rw [if_neg hC]
      exact ⟨by simp, by simp [guessCount], fun hcon => absurd hcon (by simp)⟩

/-! ### Claim theorems -/

/-- Claim C1, counterexample to the claim as stated: with `guess = target`
(so the oracle's feedback is the winning all-'2' code), the target is a
member of the candidate list but `adjust_candidates` removes it, because the
just-played guess — here equal to the target — is deleted from the result. -/
theorem C1_claim_counterexample :
    (['a', 'b'] : Word) ∈ ([['a', 'b']] : List Word) ∧
    (['a', 'b'] : Word) ∉
      adjust_candidates ['a', 'b'] (response_to_guess ['a', 'b'] ['a', 'b']) [['a', 'b']] := by
  constructor
  · decide
  · decide

/-- Claim C1 (amended): for every guess and target of the same length with
`guess ≠ target`, and every candidate list containing the target, applying
`adjust_candidates` with the feedback that the two-pass oracle produces for
`(guess, target)` yields a list still containing the target. -/
theorem C1_filter_soundness (guess target : Word) (cands : List Word)
    (hlen : guess.length = target.length) (hne : guess ≠ target)
    (hmem : target ∈ cands) :
    target ∈ adjust_candidates guess (response_to_guess guess target) cands :=
  adjust_candidates_target_mem hlen hne hmem

/-- Witness for C1 at `guess = "ab"`, `target = "ba"`. -/
theorem C1_witness :
    (['a', 'b'] : Word).length = (['b', 'a'] : Word).length ∧
    (['a', 'b'] : Word) ≠ ['b', 'a'] ∧
    (['b', 'a'] : Word) ∈ ([['b', 'a']] : List Word) ∧
    (['b', 'a'] : Word) ∈
      adjust_candidates ['a', 'b'] (response_to_guess ['a', 'b'] ['b', 'a']) [['b', 'a']] :=
  ⟨by decide, by decide, by decide,
    C1_filter_soundness ['a', 'b'] ['b', 'a'] [['b', 'a']] (by decide) (by decide) (by decide)⟩

/-- Claim C2: `char_required_count` is zero for letters occurring at most
once in the guess; for letters occurring more than once it equals the
number of positions of that letter whose feedback is '1' or '2'; every
member of `adjust_candidates`' output has at least `char_required_count` many
copies of every letter; and for guess "speed" with feedback "10100" (one 'e'
MISPLACED, the other ABSENT) the required count of 'e' is 1, not 2. -/
theorem C2_required_counts (guess response : List Char) :
    (∀ c : Char, guess.count c ≤ 1 → char_required_count guess response c = 0) ∧
    (∀ c : Char, 1 < guess.count c → char_required_count guess response c =
      ((guess.zip response).filter fun p =>
        decide (p.1 = c ∧ (p.2 = '1' ∨ p.2 = '2'))).length) ∧
    (∀ (cands : List Word) (cand : Word), cand ∈ adjust_candidates guess response cands →
      ∀ c : Char, char_required_count guess response c ≤ cand.count c) ∧
    char_required_count ['s', 'p', 'e', 'e', 'd'] ['1', '0', '1', '0', '0'] 'e' = 1 := by
  refine ⟨?_, ?_, ?_, by decide⟩
  · intro c hc
    unfold char_required_count
    rw [List.length_eq_zero, List.filter_eq_nil_iff]
    intro a _ hpa
    have hp := of_decide_eq_true hpa
    have h1 := hp.2.1
    rw [hp.2.2] at h1
    exact absurd h1 (by unfold char_occurrences; omega)
  · intro c hc
    unfold char_required_count
    rw [List.filter_congr ?_]
    intro p _
    by_cases h1 : p.1 = c
    · by_cases h2 : p.2 = '1' ∨ p.2 = '2'
      · rw [decide_eq_true ⟨h2, by unfold char_occurrences; rw [h1]; exact hc, h1⟩,
          decide_eq_true ⟨h1, h2⟩]
      · rw [decide_eq_false (fun hx => h2 hx.1), decide_eq_false (fun hx => h2 hx.2)]
    · rw [decide_eq_false (fun hx => h1 hx.2.2), decide_eq_false (fun hx => h1 hx.1)]
  · intro cands cand hmem c
    exact mem_adjust_meets hmem c

/-- Witness for C2: the "speed" example of the spec, with the single
candidate "erase" surviving the narrowing. -/
theorem C2_witness :
    char_required_count ['s', 'p', 'e', 'e', 'd'] ['1', '0', '1', '0', '0'] 's' = 0 ∧
    char_required_count ['s', 'p', 'e', 'e', 'd'] ['1', '0', '1', '0', '0'] 'e' =
      (((['s', 'p', 'e', 'e', 'd'] : List Char).zip ['1', '0', '1', '0', '0']).filter
        fun p => decide (p.1 = 'e' ∧ (p.2 = '1' ∨ p.2 = '2'))).length ∧
    char_required_count ['s', 'p', 'e', 'e', 'd'] ['1', '0', '1', '0', '0'] 'e' ≤
      (['e', 'r', 'a', 's', 'e'] : Word).count 'e' :=
  ⟨(C2_required_counts ['s', 'p', 'e', 'e', 'd'] ['1', '0', '1', '0', '0']).1 's' (by decide),
    (C2_required_counts ['s', 'p', 'e', 'e', 'd'] ['1', '0', '1', '0', '0']).2.1 'e' (by decide),
    (C2_required_counts ['s', 'p', 'e', 'e', 'd'] ['1', '0', '1', '0', '0']).2.2.1
      [['e', 'r', 'a', 's', 'e']] ['e', 'r', 'a', 's', 'e'] (by decide) 'e'⟩

/-- Claim C3: at an ABSENT ('0') position, the filtering step of
`adjust_candidates` removes the candidates containing `guess[i]` only if no
occurrence of that letter anywhere in the guess is marked '1' or '2'; if
some occurrence is so marked, the step leaves the candidate list unchanged. -/
theorem C3_absent_skip (guess response : List Char) (i : Nat) (cands : List Word)
    (h0 : response.getD i ' ' = '0') :
    ((∃ j, j < guess.length ∧ guess.getD j ' ' = guess.getD i ' ' ∧
        (response.getD j ' ' = '1' ∨ response.getD j ' ' = '2')) →
      filterStep guess response i cands = cands) ∧
    ((∀ j, j < guess.length → guess.getD j ' ' = guess.getD i ' ' →
        response.getD j ' ' ≠ '1' ∧ response.getD j ' ' ≠ '2') →
      filterStep guess response i cands =
        cands.filter fun cand => decide (guess.getD i ' ' ∉ cand)) := by
  have hstep : filterStep guess response i cands =
      if (((List.range guess.length).filter fun j =>
          decide (guess.getD j ' ' = guess.getD i ' ')).all fun j =>
          decide (response.getD j ' ' ≠ '2' ∧ response.getD j ' ' ≠ '1')) = true
      then cands.filter fun cand => decide (guess.getD i ' ' ∉ cand)
      else cands := by
    simp only [filterStep]
    rw [if_neg (show ¬(response.getD i ' ' = '2') by rw [h0]; simp),
      if_neg (show ¬(response.getD i ' ' = '1') by rw [h0]; simp),
      if_pos h0]
  constructor
  · rintro ⟨j, hj, hje, hjr⟩
    rw [hstep]
    split_ifs with hx
    · exfalso
      have hv := List.all_eq_true.mp hx j
        (List.mem_filter.mpr ⟨List.mem_range.mpr hj, decide_eq_true hje⟩)
      have hparts := of_decide_eq_true hv
      rcases hjr with h | h
      · exact hparts.2 h
      · exact hparts.1 h
    · rfl
  · intro hall
    rw [hstep]
    split_ifs with hx
    · rfl
    · exfalso
      apply hx
      apply List.all_eq_true.mpr
      intro j hjmem
      rcases List.mem_filter.mp hjmem with ⟨hjr', hje'⟩
      have hjr2 := List.mem_range.mp hjr'
      have hje2 := of_decide_eq_true hje'
      exact decide_eq_true ⟨(hall j hjr2 hje2).2, (hall j hjr2 hje2).1⟩

/-- Witness for C3: guess "aa" with feedback "20" — the ABSENT second 'a'
does not remove the candidate "ca" containing 'a', because the first 'a' is
CORRECT. -/
theorem C3_witness :
    filterStep ['a', 'a'] ['2', '0'] 1 [['c', 'a']] = [['c', 'a']] :=
  (C3_absent_skip ['a', 'a'] ['2', '0'] 1 [['c', 'a']] (by decide)).1
    ⟨0, by decide, by decide, Or.inr (by decide)⟩

/-- Claim C4, counterexample to the claim as stated: with a candidate list
containing the guess twice, Python's `list.remove` deletes only the first
occurrence, so the just-played guess is still a member of the output. -/
theorem C4_claim_counterexample :
    (['a', 'b'] : Word) ∈ adjust_candidates ['a', 'b'] ['2', '2'] [['a', 'b'], ['a', 'b']] := by
  decide

/-- Claim C4 (amended): the output of `adjust_candidates` is an
order-preserving subsequence of the input (hence a subset, and no longer
than the input); and provided the guess occurs at most once in the input
candidate list, the guess is not a member of the output. -/
theorem C4_monotonic_shrink (guess response : List Char) (cands : List Word) :
    (adjust_candidates guess response cands).Sublist cands ∧
    (adjust_candidates guess response cands).length ≤ cands.length ∧
    (∀ w ∈ adjust_candidates guess response cands, w ∈ cands) ∧
    (cands.count guess ≤ 1 → guess ∉ adjust_candidates guess response cands) :=
  ⟨adjust_candidates_sublist guess response cands,
    (adjust_candidates_sublist guess response cands).length_le,
    fun _ hw => (adjust_candidates_sublist guess response cands).subset hw,
    fun hcnt => adjust_candidates_not_mem_guess guess response cands hcnt⟩

/-- Witness for C4 at a duplicate-free candidate list. -/
theorem C4_witness :
    (['a', 'b'] : Word) ∉ adjust_candidates ['a', 'b'] ['2', '2'] [['a', 'b']] :=
  (C4_monotonic_shrink ['a', 'b'] ['2', '2'] [['a', 'b']]).2.2.2 (by decide)

/-- Claim C5: `update_game_state` sets `correct_positions[i]` to `guess[i]`
exactly at the positions where the feedback is '2' and leaves the other
positions unchanged; a letter is in the resulting misplaced set iff it was
already there or some '1'-position carries it while it is not a confirmed
letter at the moment that position is processed (the state after the earlier
positions); and a feedback with no '1' and no '2' changes nothing. -/
theorem C5_update_semantics (st : PlayerState) (guess response : List Char) (k : Nat)
    (hg : guess.length = k) (hr : response.length = k)
    (hcp : st.correct_positions.length = k) :
    (∀ i, i < k → (update_game_state st guess response).correct_positions.getD i none =
      if response.getD i ' ' = '2' then some (guess.getD i ' ')
      else st.correct_positions.getD i none) ∧
    (∀ c : Char, c ∈ (update_game_state st guess response).misplaced_letters ↔
      c ∈ st.misplaced_letters ∨ ∃ i, i < k ∧ response.getD i ' ' = '1' ∧
        guess.getD i ' ' = c ∧
        some c ∉ (update_game_state st (guess.take i) (response.take i)).correct_positions) ∧
    ((∀ i, i < k → response.getD i ' ' ≠ '1' ∧ response.getD i ' ' ≠ '2') →
      update_game_state st guess response = st) := by
  have hzlen : (guess.zip response).length = k := by
    rw [List.length_zip, hg, hr, min_self]
  refine ⟨?_, ?_, ?_⟩
  · intro i hi
    unfold update_game_state
    have h := ugsAux_correct_getD (guess.zip response) st 0 i
      (by rw [hzlen]; exact hi) (by rw [hzlen, hcp]; omega)
    simp only [Nat.zero_add] at h
    rw [h, getD_zip ' ' ' ' (by rw [hg]; exact hi) (by rw [hr]; exact hi)]
  · intro c
    unfold update_game_state
    rw [ugsAux_misplaced_mem (guess.zip response) st 0 c]
    apply or_congr_right
    constructor
    · rintro ⟨j, hj, h1, h2, h3⟩
      have hjk : j < k := hzlen ▸ hj
      rw [getD_zip ' ' ' ' (by rw [hg]; exact hjk) (by rw [hr]; exact hjk)] at h1 h2
      refine ⟨j, hjk, h1, h2, ?_⟩
      rw [take_zip_comm] at h3
      exact h3
    · rintro ⟨i, hik, h1, h2, h3⟩
      refine ⟨i, by rw [hzlen]; exact hik, ?_, ?_, ?_⟩
      · rw [getD_zip ' ' ' ' (by rw [hg]; exact hik) (by rw [hr]; exact hik)]
        exact h1
      · rw [getD_zip ' ' ' ' (by rw [hg]; exact hik) (by rw [hr]; exact hik)]
        exact h2
      · rw [take_zip_comm]
        exact h3
  · intro hall
    unfold update_game_state
    apply ugsAux_id_of_no_marks
    intro p hp
    obtain ⟨j, hj, hjd⟩ := exists_getD_of_mem (' ', ' ') hp
    have hjk : j < k := hzlen ▸ hj
    have hx := hall j hjk
    rw [getD_zip ' ' ' ' (by rw [hg]; exact hjk) (by rw [hr]; exact hjk)] at hjd
    rw [← hjd]
    exact hx

/-- Witness for C5 at guess "bb" with feedback "12" over a fresh state: the
'1' at position 0 is processed before the '2' confirms 'b' at position 1. -/
theorem C5_witness :
    (∀ i, i < 2 →
      (update_game_state ⟨[none, none], []⟩ ['b', 'b'] ['1', '2']).correct_positions.getD i
          none =
        if (['1', '2'] : List Char).getD i ' ' = '2'
        then some ((['b', 'b'] : List Char).getD i ' ')
        else ([none, none] : List (Option Char)).getD i none) ∧
    (∀ c : Char,
      c ∈ (update_game_state ⟨[none, none], []⟩ ['b', 'b'] ['1', '2']).misplaced_letters ↔
      c ∈ ([] : List Char) ∨ ∃ i, i < 2 ∧ (['1', '2'] : List Char).getD i ' ' = '1' ∧
        (['b', 'b'] : List Char).getD i ' ' = c ∧
        some c ∉ (update_game_state ⟨[none, none], []⟩ ((['b', 'b'] : List Char).take i)
          ((['1', '2'] : List Char).take i)).correct_positions) ∧
    ((∀ i, i < 2 → (['1', '2'] : List Char).getD i ' ' ≠ '1' ∧
        (['1', '2'] : List Char).getD i ' ' ≠ '2') →
      update_game_state ⟨[none, none], []⟩ ['b', 'b'] ['1', '2'] = ⟨[none, none], []⟩) :=
  C5_update_semantics ⟨[none, none], []⟩ ['b', 'b'] ['1', '2'] 2
    (by decide) (by decide) (by decide)

/-- Claim C6: `is_guess_valid` returns true iff the word carries the
confirmed letter at every confirmed position and contains every misplaced
letter somewhere. -/
theorem C6_hard_mode_legality (st : PlayerState) (guess : Word)
    (h : guess.length = st.correct_positions.length) :
    is_guess_valid st guess = true ↔
      ((∀ i c, i < guess.length → st.correct_positions.getD i none = some c →
          guess.getD i ' ' = c) ∧
        ∀ c ∈ st.misplaced_letters, c ∈ guess) :=
  is_guess_valid_iff st guess h

/-- Witness for C6: position 0 confirmed 's' and misplaced letter 'e'; the
word "slant" (no 'e') and the word "crane" (non-'s' at position 0) are both
rejected. -/
theorem C6_witness :
    (is_guess_valid ⟨[some 's', none, none, none, none], ['e']⟩ ['s', 'l', 'a', 'n', 't'] =
        true ↔
      ((∀ i c, i < (['s', 'l', 'a', 'n', 't'] : Word).length →
          ([some 's', none, none, none, none] : List (Option Char)).getD i none = some c →
          (['s', 'l', 'a', 'n', 't'] : Word).getD i ' ' = c) ∧
        ∀ c ∈ (['e'] : List Char), c ∈ (['s', 'l', 'a', 'n', 't'] : Word))) ∧
    is_guess_valid ⟨[some 's', none, none, none, none], ['e']⟩ ['s', 'l', 'a', 'n', 't'] =
      false ∧
    is_guess_valid ⟨[some 's', none, none, none, none], ['e']⟩ ['c', 'r', 'a', 'n', 'e'] =
      false :=
  ⟨C6_hard_mode_legality ⟨[some 's', none, none, none, none], ['e']⟩
      ['s', 'l', 'a', 'n', 't'] (by decide), by decide, by decide⟩

/-- Claim C7: when the selected guess draws the winning (all-CORRECT)
feedback, the loop of `play` appends the pair to the trace and stops at once
as `won` with that guess counted, while the constraint state, the candidate
list and the attempts set keep exactly their values from before the round. -/
theorem C7_winning_frame (pick : List Word → Word) (target : Word) (fg : Option Word)
    (fuel n : Nat) (cands att : List Word) (tr : List (Word × Feedback))
    (st : PlayerState) (guess : Word) (hc : 1 ≤ cands.length)
    (hsel : selectGuess pick fg (n + 1) cands att st = Except.ok guess)
    (hwin : is_correct_response (response_to_guess guess target) = true) :
    playLoop pick target fg (fuel + 1) n cands att tr st =
      PlayResult.won (n + 1) (tr ++ [(guess, response_to_guess guess target)])
        cands att st := by
  simp only [playLoop]
  rw [if_pos hc, hsel]
  dsimp only
  rw [if_pos hwin]

/-- Witness for C7: one-round win on the single candidate "ab". -/
theorem C7_witness :
    playLoop pickHead ['a', 'b'] none 1 0 [['a', 'b']] [] [] ⟨[none, none], []⟩ =
      PlayResult.won 1 [(['a', 'b'], response_to_guess ['a', 'b'] ['a', 'b'])]
        [['a', 'b']] [] ⟨[none, none], []⟩ :=
  C7_winning_frame pickHead ['a', 'b'] none 0 0 [['a', 'b']] [] [] ⟨[none, none], []⟩
    ['a', 'b'] (by decide) (by rfl) (by decide)

/-- Claim C8, counterexample to the claim as stated: a forced first guess
outside the candidate set need not shrink the candidates, so the number of
rounds can exceed the initial number of candidates — here 2 rounds against
a single initial candidate. -/
theorem C8_claim_counterexample :
    ([['a', 'b']] : List Word).length <
      guessCount (play 2 pickHead [['a', 'b']] ['a', 'b'] (some ['b', 'a'])) := by
  decide

/-- Claim C8 (amended): the loop of `play` always terminates — the fuel
`initial candidates + 1` is never exhausted, the total number of rounds is
at most the initial number of candidates plus one, and at most the initial
number when no first guess is forced; a non-winning round that narrows the
candidates to empty stops in that round reporting exhaustion; and every
call of `adjust_candidates` whose guess belongs to the candidate list
strictly shrinks it. -/
theorem C8_termination_amended :
    (∀ (k : Nat) (pick : List Word → Word) (words : List Word) (target : Word)
        (fg : Option Word), (∀ l : List Word, l ≠ [] → pick l ∈ l) →
      play k pick words target fg ≠ PlayResult.outOfFuel ∧
      guessCount (play k pick words target fg) ≤ words.length + 1 ∧
      (fg = none → guessCount (play k pick words target fg) ≤ words.length)) ∧
    (∀ (pick : List Word → Word) (target : Word) (fg : Option Word) (fuel n : Nat)
        (cands att : List Word) (tr : List (Word × Feedback)) (st : PlayerState)
        (guess : Word),
      1 ≤ cands.length →
      selectGuess pick fg (n + 1) cands att st = Except.ok guess →
      is_correct_response (response_to_guess guess target) = false →
      adjust_candidates guess (response_to_guess guess target) cands = [] →
      playLoop pick target fg (fuel + 1) n cands att tr st =
        PlayResult.exhausted (n + 1) (tr ++ [(guess, response_to_guess guess target)]) []
          (att.insert guess) (update_game_state st guess (response_to_guess guess target))) ∧
    (∀ (guess response : List Char) (cands : List Word), guess ∈ cands →
      (adjust_candidates guess response cands).length < cands.length) := by
  refine ⟨fun k pick words target fg hpick => play_spec k pick words target fg hpick,
    ?_, fun g r c h => adjust_candidates_length_lt g r c h⟩
  intro pick target fg fuel n cands att tr st guess hc hsel hwin hempty
  simp only [playLoop]
  rw [if_pos hc, hsel]
  dsimp only
  rw [if_neg (by rw [hwin]; simp), if_pos (by rw [hempty]; rfl), hempty]

/-- Witness for C8: the one-candidate game with no forced first guess. -/
theorem C8_witness :
    play 2 pickHead [['a', 'b']] ['a', 'b'] none ≠ PlayResult.outOfFuel :=
  (C8_termination_amended.1 2 pickHead [['a', 'b']] ['a', 'b'] none pickHead_mem).1

/-- Claim C9: when no candidate is both hard-mode legal and unattempted,
`generate_hard_mode_guess` fails with the `ValueError` (modelled as
`Except.error` with the source's message) instead of returning a word, and
the loop of `play` surfaces this failure as `noLegalGuess` instead of
catching it. -/
theorem C9_no_legal_guess (pick : List Word → Word) (cands att : List Word)
    (st : PlayerState)
    (hempty : cands.filter (fun w => is_guess_valid st w && decide (w ∉ att)) = []) :
    generate_hard_mode_guess pick cands att st =
      Except.error "No valid candidates available that meet hard mode constraints." ∧
    ∀ (target : Word) (fg : Option Word) (fuel n : Nat) (tr : List (Word × Feedback)),
      1 ≤ cands.length → (fg = none ∨ 1 ≤ n) →
      playLoop pick target fg (fuel + 1) n cands att tr st = PlayResult.noLegalGuess := by
  have hgen : generate_hard_mode_guess pick cands att st =
      Except.error "No valid candidates available that meet hard mode constraints." := by
    unfold generate_hard_mode_guess
    rw [if_pos hempty]
  refine ⟨hgen, ?_⟩
  intro target fg fuel n tr hc hfg
  simp only [playLoop]
  rw [if_pos hc, selectGuess_eq_generate pick fg n cands att st hfg, hgen]

/-- Witness for C9: a state demanding the letter 'z', which no candidate
contains. -/
theorem C9_witness :
    generate_hard_mode_guess pickHead [['a', 'b']] [] ⟨[none, none], ['z']⟩ =
      Except.error "No valid candidates available that meet hard mode constraints." ∧
    playLoop pickHead ['a', 'b'] none 1 0 [['a', 'b']] [] [] ⟨[none, none], ['z']⟩ =
      PlayResult.noLegalGuess :=
  ⟨(C9_no_legal_guess pickHead [['a', 'b']] [] ⟨[none, none], ['z']⟩ (by decide)).1,
    (C9_no_legal_guess pickHead [['a', 'b']] [] ⟨[none, none], ['z']⟩ (by decide)).2
      ['a', 'b'] none 0 0 [] (by decide) (Or.inl rfl)⟩

/-- Claim C10: `adjust_candidates` is pure — the Python code copies the
input list (`candidates[:]`) and only rebuilds new lists, so the input is
not mutated — and its result is an order-preserving subsequence of the
input: surviving candidates appear in their original relative order. -/
theorem C10_output_sublist (guess response : List Char) (cands : List Word) :
    (adjust_candidates guess response cands).Sublist cands :=
  adjust_candidates_sublist guess response cands

end HardModeWordle
